import Mathlib

/-!
Verification of the BibTeX-to-APA citation formatter (`main.py`).

The program reads one BibTeX entry, extracts its fields through an external
BibTeX-parsing library, normalizes a small set of LaTeX accent macros to
Unicode, formats the author list in APA style and prints one reference line.
This file gives a shallow embedding of that pipeline over `List Char` /
`String` and proves the stated properties about it.

The embedding mirrors `main.py` line by line:
* `unescape_latex`    — `_unescape_latex` (lines 8-36)
* `parseBibFields`    — `_parse_bib_fields` (lines 38-55), with the external
                        parser abstracted as a `ParseOutcome`
* `formatAuthorsAPA`  — `_format_authors_apa` (lines 57-87); Python runtime
                        errors (`IndexError` on `tokens[-1]` for an empty
                        token list, `names[-1]` for an empty name list) are
                        modelled by `Option`, `none` meaning an uncaught
                        exception
* `renderVals` / `renderFields` / `runWithText` — `PaperFromBib` and the
  `--text` path of `main` (lines 89-137)
-/

set_option maxRecDepth 20000

/-- The apostrophe character `'` (used by the acute-accent macro). -/
def squote : Char := Char.ofNat 39

/-- The double-quote character (used by the umlaut macro). -/
def dquote : Char := Char.ofNat 34

/-- The grave-accent character (backtick, used by the grave macro). -/
def btick : Char := Char.ofNat 96

/-- The opening curly brace character. -/
def obrace : Char := Char.ofNat 123

/-- The closing curly brace character. -/
def cbrace : Char := Char.ofNat 125

/-- Python's whitespace class: the characters matched by `\s` in a `str`
regex and stripped by `str.strip()` / split by `str.split()`. -/
def isPySpace (c : Char) : Bool :=
  let n := c.toNat
  decide (9 ≤ n ∧ n ≤ 13) || n == 32 || decide (28 ≤ n ∧ n ≤ 31) ||
    n == 0x85 || n == 0xa0 || n == 0x1680 ||
    decide (0x2000 ≤ n ∧ n ≤ 0x200a) || n == 0x2028 || n == 0x2029 ||
    n == 0x202f || n == 0x205f || n == 0x3000

/-- The character class `[A-Za-z]` used by every accent-macro regex. -/
def isLatinLetter (c : Char) : Bool :=
  decide (('a' ≤ c ∧ c ≤ 'z') ∨ ('A' ≤ c ∧ c ≤ 'Z'))

/-- The `accents` dictionary of `_unescape_latex` with its `.get(x, x)`
default (line 15-18, 21). -/
def accentsGet (c : Char) : Char :=
  if c = 'a' then 'á' else if c = 'e' then 'é' else if c = 'i' then 'í'
  else if c = 'o' then 'ó' else if c = 'u' then 'ú'
  else if c = 'A' then 'Á' else if c = 'E' then 'É' else if c = 'I' then 'Í'
  else if c = 'O' then 'Ó' else if c = 'U' then 'Ú'
  else if c = 'n' then 'ñ' else if c = 'N' then 'Ñ' else c

/-- The umlaut table `{"o":"ö","O":"Ö"}.get(x, x)` (line 29). -/
def umlautGet (c : Char) : Char :=
  if c = 'o' then 'ö' else if c = 'O' then 'Ö' else c

/-- `s.replace('\n', ' ')` (line 12). -/
def replNL (l : List Char) : List Char :=
  l.map fun c => if c = '\n' then ' ' else c

/-- One left-to-right pass of `re.sub(r"\\'\\?([A-Za-z])", ...)` (line 21):
an acute macro `\'x` or `\'\x` is replaced through `accentsGet`; at a
position with no match the scanner emits one character and rescans from the
next position (`contR`). -/
def subAcute : List Char → List Char
  | [] => []
  | c :: rest =>
    if c = '\\' then
      let contR := subAcute rest
      match rest with
      | q :: rest1 =>
        if q = squote then
          match rest1 with
          | '\\' :: d :: rest2 =>
            if isLatinLetter d then accentsGet d :: subAcute rest2
            else c :: contR
          | d :: rest2 =>
            if isLatinLetter d then accentsGet d :: subAcute rest2
            else c :: contR
          | [] => c :: contR
        else c :: contR
      | [] => [c]
    else c :: subAcute rest

/-- One pass of ``re.sub(r"\\`([A-Za-z])", ...)`` (line 25): a grave macro
is replaced by the bare letter. -/
def subGrave : List Char → List Char
  | [] => []
  | c :: rest =>
    if c = '\\' then
      let contR := subGrave rest
      match rest with
      | q :: rest1 =>
        if q = btick then
          match rest1 with
          | d :: rest2 =>
            if isLatinLetter d then d :: subGrave rest2
            else c :: contR
          | [] => c :: contR
        else c :: contR
      | [] => [c]
    else c :: subGrave rest

/-- One pass of `re.sub(r"\\~([nN])", ...)` (line 27). -/
def subTilde : List Char → List Char
  | [] => []
  | c :: rest =>
    if c = '\\' then
      let contR := subTilde rest
      match rest with
      | q :: rest1 =>
        if q = '~' then
          match rest1 with
          | d :: rest2 =>
            if d = 'n' then 'ñ' :: subTilde rest2
            else if d = 'N' then 'Ñ' :: subTilde rest2
            else c :: contR
          | [] => c :: contR
        else c :: contR
      | [] => [c]
    else c :: subTilde rest

/-- One pass of `re.sub(r'\\"([A-Za-z])', ...)` (line 29). -/
def subUmlaut : List Char → List Char
  | [] => []
  | c :: rest =>
    if c = '\\' then
      let contR := subUmlaut rest
      match rest with
      | q :: rest1 =>
        if q = dquote then
          match rest1 with
          | d :: rest2 =>
            if isLatinLetter d then umlautGet d :: subUmlaut rest2
            else c :: contR
          | [] => c :: contR
        else c :: contR
      | [] => [c]
    else c :: subUmlaut rest

/-- `s.replace('{', '').replace('}', '')` (line 32). -/
def removeBraces (l : List Char) : List Char :=
  l.filter fun c => !(c == obrace || c == cbrace)

/-- Prepend one whitespace character to an already collapsed list: if the
list already starts with (collapsed) whitespace the character joins that
run, otherwise it becomes a single `' '`. -/
def wsCons (r : List Char) : List Char :=
  match r with
  | [] => [' ']
  | d :: tail => if isPySpace d then d :: tail else ' ' :: d :: tail

/-- `re.sub(r'\s+', ' ', s)` (line 35): every maximal run of whitespace
becomes a single space. -/
def collapseWs : List Char → List Char
  | [] => []
  | c :: rest =>
    if isPySpace c then wsCons (collapseWs rest)
    else c :: collapseWs rest

/-- Remove leading Python whitespace. -/
def pyStripLeft (l : List Char) : List Char := l.dropWhile isPySpace

/-- Remove trailing Python whitespace. -/
def pyStripRight : List Char → List Char
  | [] => []
  | c :: rest =>
    match pyStripRight rest with
    | [] => if isPySpace c then [] else [c]
    | d :: tail => c :: d :: tail

/-- Python `str.strip()`. -/
def pyStrip (l : List Char) : List Char := pyStripRight (pyStripLeft l)

/-- Python `str.strip()` on `String`. -/
def pyStripStr (s : String) : String := ⟨pyStrip s.data⟩

/-- `_unescape_latex` (lines 8-36): newline replacement, the four accent
substitutions in order, brace removal, whitespace collapsing, strip. -/
def unescape_latex (s : String) : String :=
  if s = "" then s
  else
    ⟨pyStrip (collapseWs (removeBraces
      (subUmlaut (subTilde (subGrave (subAcute (replNL s.data)))))))⟩

example : unescape_latex "\\'a" = "á" := by decide
example : unescape_latex "\\'\\E" = "É" := by decide
example : unescape_latex "\\'q" = "q" := by decide
example : unescape_latex "\\`a" = "a" := by decide
example : unescape_latex "\\~n" = "ñ" := by decide
example : unescape_latex "\\~a" = "\\~a" := by decide
example : unescape_latex "\\\"o" = "ö" := by decide
example : unescape_latex "\\\"s" = "s" := by decide
example : unescape_latex "  a \x7bB\x7d \n c  " = "a B c" := by decide
example : unescape_latex "\x7b\x7d" = "" := by decide

/-- Greedy match of the separator regex `\s+and\s+` (line 61) at the head of
the list: one or more whitespace characters, the word `and`, one or more
whitespace characters. Returns the remainder after the match. -/
def matchAndSep (l : List Char) : Option (List Char) :=
  if l.takeWhile isPySpace = [] then none
  else
    match l.dropWhile isPySpace with
    | c1 :: c2 :: c3 :: r2 =>
      if c1 = 'a' ∧ c2 = 'n' ∧ c3 = 'd' then
        if r2.takeWhile isPySpace = [] then none
        else some (r2.dropWhile isPySpace)
      else none
    | _ => none

/-- Match of the literal five-character separator `" and "` at the head of
the list (the claimed splitting rule). -/
def matchLitAnd (l : List Char) : Option (List Char) :=
  match l with
  | c1 :: c2 :: c3 :: c4 :: c5 :: rest =>
    if c1 = ' ' ∧ c2 = 'a' ∧ c3 = 'n' ∧ c4 = 'd' ∧ c5 = ' ' then some rest
    else none
  | _ => none

/-- Left-to-right scanner underlying `re.split` / `str.split(sep)`: at each
position try the separator matcher `m`; on a match close the current
segment and continue after the separator, otherwise move the head character
into the current segment. `fuel` bounds the recursion; every step consumes
at least one character, so `fuel = l.length` never runs out. -/
def splitGo (m : List Char → Option (List Char)) :
    Nat → List Char → List Char → List (List Char)
  | 0, l, seg => [seg.reverse ++ l]
  | _ + 1, [], seg => [seg.reverse]
  | fuel + 1, c :: rest, seg =>
    match m (c :: rest) with
    | some rest2 => seg.reverse :: splitGo m fuel rest2 []
    | none => splitGo m fuel rest (c :: seg)

/-- `re.split(r'\s+and\s+', authors_field)` (line 61). -/
def splitAndSep (l : List Char) : List (List Char) :=
  splitGo matchAndSep l.length l []

/-- The author-field split performed by `_format_authors_apa`, as strings. -/
def splitAuthors (s : String) : List String :=
  (splitAndSep s.data).map fun l => ⟨l⟩

/-- Splitting on the literal separator `" and "` (the rule as the claim
states it), as strings. -/
def specSplitLitAnd (s : String) : List String :=
  (splitGo matchLitAnd s.data.length s.data []).map fun l => ⟨l⟩

/-- Python `str.split()` with no argument: split on whitespace runs,
dropping empty tokens; `acc` accumulates the current token reversed. -/
def pyWordsAux : List Char → List Char → List (List Char)
  | [], acc => if acc = [] then [] else [acc.reverse]
  | c :: rest, acc =>
    if isPySpace c then
      if acc = [] then pyWordsAux rest [] else acc.reverse :: pyWordsAux rest []
    else pyWordsAux rest (c :: acc)

/-- Python `str.split()` with no argument. -/
def pyWords (l : List Char) : List (List Char) := pyWordsAux l []

/-- Python `" ".join(tokens)` (line 72), also the "space-joined" of the
specification. -/
def joinSpace : List (List Char) → List Char
  | [] => []
  | [t] => t
  | t :: ts => t ++ ' ' :: joinSpace ts

/-- One step of the initials loop (lines 75-77): a non-empty token `c :: _`
appends `" c."` to the accumulator, the guard `if token:` skips `[]`. -/
def initialsArm (acc : List Char) (t : List Char) : List Char :=
  match t with
  | [] => acc
  | c :: _ => acc ++ [' ', c, '.']

/-- Lines 74-78: build `" X. Y."` from the first-name string and strip. -/
def initialsOf (first : List Char) : List Char :=
  pyStrip ((pyWords first).foldl initialsArm [])

/-- Lines 63-82, the per-segment formatting. `p` is the stripped, unescaped
segment; a comma splits it once into last/first; otherwise the whitespace
tokens decide, and an empty token list models the `IndexError` raised by
`tokens[-1]` (`none`). -/
def formatSegment (seg : List Char) : Option String :=
  let p := (unescape_latex (pyStripStr ⟨seg⟩)).data
  let lastFirst : Option (List Char × List Char) :=
    if (',') ∈ p then
      some (pyStrip (p.takeWhile fun c => !(c == ',')),
            pyStrip ((p.dropWhile fun c => !(c == ',')).tail))
    else
      match pyWords p with
      | [] => none
      | [t] => some (t, [])
      | ts => some (ts.getLastD [], joinSpace ts.dropLast)
  match lastFirst with
  | none => none
  | some (last, first) =>
    let initials := initialsOf first
    if initials = [] then some ⟨last⟩
    else some ⟨last ++ (',' :: ' ' :: initials)⟩

/-- The loop of lines 63-82 over all segments; `none` if any segment
raises. -/
def formatSegments : List (List Char) → Option (List String)
  | [] => some []
  | seg :: rest =>
    match formatSegment seg with
    | none => none
    | some n =>
      match formatSegments rest with
      | none => none
      | some ns => some (n :: ns)

/-- Lines 83-87: join the formatted names. An empty name list models the
`IndexError` raised by `names[-1]` on line 87. -/
def joinNamesAPA : List String → Option String
  | [] => none
  | [n] => some n
  | [a, b] => some (a ++ ", & " ++ b)
  | ns => some (String.intercalate ", " ns.dropLast ++ ", & " ++ ns.getLastD "")

/-- `_format_authors_apa` (lines 57-87); `none` models an uncaught Python
exception. -/
def formatAuthorsAPA (s : String) : Option String :=
  if s = "" then some ""
  else
    match formatSegments (splitAndSep s.data) with
    | none => none
    | some names => joinNamesAPA names

example : formatAuthorsAPA "" = some "" := by decide
example : formatAuthorsAPA "Smith, John" = some "Smith, J." := by decide
example : formatAuthorsAPA "Smith" = some "Smith" := by decide
example : formatAuthorsAPA "John Smith and Jane Doe" = some "Smith, J., & Doe, J." := by decide
example : formatAuthorsAPA "A B and C D and E F" = some "B, A., D, C., & F, E." := by decide
example : formatAuthorsAPA "A and " = none := by decide
example : formatAuthorsAPA " and B" = none := by decide
example : splitAuthors "A\tand\tB" = ["A", "B"] := by decide
example : specSplitLitAnd "A\tand\tB" = ["A\tand\tB"] := by decide

/-- Strip-then-unescape of a field value as done on lines 96-100:
`_unescape_latex(fields.get(k, '')).strip()`. -/
def procField (s : String) : String := pyStripStr (unescape_latex s)

/-- Lines 101-114: the journal / volume(number) segment. -/
def journalPart (journal volume number : String) : String :=
  let volPart : String :=
    if volume ≠ "" then
      if number ≠ "" then volume ++ "(" ++ number ++ ")" else volume
    else
      if number ≠ "" then "(" ++ number ++ ")" else ""
  if volPart ≠ "" then
    if journal ≠ "" then journal ++ ", " ++ volPart else volPart
  else journal

/-- Lines 115-125: assemble the output line from the formatted pieces and
normalize whitespace. -/
def buildApa (authors year title jp : String) : String :=
  let apa := ""
  let apa := if authors ≠ "" then apa ++ authors ++ " " else apa
  let apa := if year ≠ "" then apa ++ "(" ++ year ++ "). " else apa
  let apa := if title ≠ "" then apa ++ title ++ ". " else apa
  let apa := if jp ≠ "" then apa ++ jp ++ "." else apa
  ⟨pyStrip (collapseWs apa.data)⟩

/-- Lines 95-126 of `PaperFromBib` on the raw field values; `none` models
the author formatter raising. -/
def renderVals (author year title journal volume number : String) :
    Option String :=
  match formatAuthorsAPA author with
  | none => none
  | some authors =>
    some (buildApa authors (procField year) (procField title)
      (journalPart (procField journal) (procField volume) (procField number)))

/-- Python dict lookup where later insertions of the same key win: find the
last pair with the given key. -/
def dictFind : List (String × String) → String → Option String
  | [], _ => none
  | p :: rest, key =>
    match dictFind rest key with
    | some v => some v
    | none => if p.1 = key then some p.2 else none

/-- `fields.get(key, '')` on the field mapping. -/
def dictGet (d : List (String × String)) (key : String) : String :=
  (dictFind d key).getD ""

/-- The field mapping with one key removed (a field being absent). -/
def eraseKey : List (String × String) → String → List (String × String)
  | [], _ => []
  | p :: rest, key =>
    if p.1 = key then eraseKey rest key else p :: eraseKey rest key

/-- `PaperFromBib` from the field mapping on (lines 93-126): the printed
line, or `none` if the author formatter raised. -/
def renderFields (d : List (String × String)) : Option String :=
  renderVals (dictGet d "author") (dictGet d "year") (dictGet d "title")
    (dictGet d "journal") (dictGet d "volume") (dictGet d "number")

/-- Result of the external `bibtexparser.loads` call: either the parsed
entry list (each entry its field pairs in insertion order), or a raised
exception with its message. -/
inductive ParseOutcome where
  | ok : List (List (String × String)) → ParseOutcome
  | err : String → ParseOutcome

/-- `_parse_bib_fields` (lines 38-55): returns the lowercased field mapping
of the first entry together with the diagnostics written to stderr. A
parser exception is caught, reported on stderr, and yields an empty
mapping. -/
def parseBibFields (paper : String) (outcome : ParseOutcome) :
    List (String × String) × List String :=
  if paper = "" then ([], [])
  else
    match outcome with
    | .ok [] => ([], [])
    | .ok (e :: _) => (e.map fun p => (p.1.toLower, p.2), [])
    | .err msg => ([], ["Error parsing BibTeX with bibtexparser: " ++ msg])

/-- `PaperFromBib` on raw text (lines 89-126): the lines printed to stdout
and stderr, or `none` if an exception escapes. -/
def paperFromBib (paper : String) (outcome : ParseOutcome) :
    Option (List String × List String) :=
  let fe := parseBibFields paper outcome
  match renderFields fe.1 with
  | none => none
  | some line => some ([line], fe.2)

/-- The `--text` path of `main` (lines 135-137): stdout lines, stderr
lines, and exit status `0`; `none` models a crash. -/
def runWithText (paper : String) (outcome : ParseOutcome) :
    Option (List String × List String × Nat) :=
  match paperFromBib paper outcome with
  | none => none
  | some (out, errs) => some (out, errs, 0)

example : renderFields [("title", "A Study"), ("year", "2020")] =
    some "(2020). A Study." := by decide
example : renderFields [] = some "" := by decide
example : journalPart "J" "5" "" = "J, 5" := by decide
example : journalPart "" "5" "2" = "5(2)" := by decide
example : journalPart "J" "" "2" = "J, (2)" := by decide
example : renderFields [("author", "John Smith and Jane Doe"),
    ("title", "A Study"), ("year", "2020"), ("journal", "Journal of Things"),
    ("volume", "5"), ("number", "2")] =
    some "Smith, J., & Doe, J. (2020). A Study. Journal of Things, 5(2)." := by decide
example : runWithText "@bad" (.err "boom") =
    some ([""], ["Error parsing BibTeX with bibtexparser: boom"], 0) := by decide

/-- Field values whose whitespace is only single spaces: every whitespace
character is `' '` and no two whitespace characters are adjacent. On such
inputs the separator regex `\s+and\s+` can only match the literal
`" and "`. -/
def singleSpaced : List Char → Bool
  | [] => true
  | [c] => !isPySpace c || c == ' '
  | c :: d :: rest =>
    (!isPySpace c || c == ' ') && !(isPySpace c && isPySpace d) &&
      singleSpaced (d :: rest)

/-- A list in which every whitespace character is `' '` and no two
whitespace characters are adjacent — the shape of `collapseWs` output. -/
def noWsRun : List Char → Bool
  | [] => true
  | [c] => !isPySpace c || c == ' '
  | c :: d :: rest =>
    (!isPySpace c || (c == ' ' && !isPySpace d)) && noWsRun (d :: rest)

/-- The accented characters the specification documents for the acute
macro: the twelve letters of its table, any other letter bare. -/
def specAcuteTable (c : Char) : Char :=
  if c = 'a' then 'á' else if c = 'e' then 'é' else if c = 'i' then 'í'
  else if c = 'o' then 'ó' else if c = 'u' then 'ú'
  else if c = 'A' then 'Á' else if c = 'E' then 'É' else if c = 'I' then 'Í'
  else if c = 'O' then 'Ó' else if c = 'U' then 'Ú'
  else if c = 'n' then 'ñ' else if c = 'N' then 'Ñ' else c

/-- The umlaut results the specification documents: `ö`/`Ö` for `o`/`O`,
any other letter bare. -/
def specUmlautTable (c : Char) : Char :=
  if c = 'o' then 'ö' else if c = 'O' then 'Ö' else c

/-- "No macros or braces remain": none of the four accent substitutions
changes the string and it contains no brace. -/
def noMacroOrBrace (s : String) : Prop :=
  subAcute s.data = s.data ∧ subGrave s.data = s.data ∧
    subTilde s.data = s.data ∧ subUmlaut s.data = s.data ∧
    obrace ∉ s.data ∧ cbrace ∉ s.data

instance (s : String) : Decidable (noMacroOrBrace s) := by
  unfold noMacroOrBrace; infer_instance

/-- Initials as the claim words them: the first character of each
first-name token, each followed by a period, space-joined. -/
def specInitials (first : List Char) : List Char :=
  joinSpace ((pyWords first).map fun t => [t.headD ' ', '.'])

/-- A formatted name as the specification words it: `"Last, Initials"`
when the initials are non-empty, else `"Last"`. -/
def mkSpecName (last first : List Char) : String :=
  if specInitials first = [] then ⟨last⟩
  else ⟨last ++ (',' :: ' ' :: specInitials first)⟩

/-- The comma branch of the claim: split once on the first comma into
(last, first), both trimmed. -/
def specCommaName (p : List Char) : String :=
  mkSpecName (pyStrip (p.takeWhile fun c => !(c == ',')))
    (pyStrip ((p.dropWhile fun c => !(c == ',')).tail))

/-- The multi-token branch of the claim: the final token is the last name,
the preceding tokens joined by spaces form the first-name string. -/
def specMultiName (toks : List (List Char)) : String :=
  mkSpecName (toks.getLastD []) (joinSpace toks.dropLast)

/-- The assembly rule exactly as the claim words it: concatenate, in
order, only the non-empty parts with their own trailing punctuation, then
collapse whitespace runs to single spaces and trim. -/
def specAssemble (authors year title jp : String) : String :=
  ⟨pyStrip (collapseWs (((if authors = "" then "" else authors ++ " ") ++
    (if year = "" then "" else "(" ++ year ++ "). ") ++
    (if title = "" then "" else title ++ ". ") ++
    (if jp = "" then "" else jp ++ ".")).data))⟩

theorem str_eq_empty_of_data : ∀ (a : String), a.data = [] → a = ""
  | ⟨[]⟩, _ => rfl
  | ⟨_ :: _⟩, h => nomatch h

theorem str_append_ne_empty_left (a b : String) (h : a ≠ "") : a ++ b ≠ "" := by
  intro hc
  apply h
  apply str_eq_empty_of_data
  have h1 : (a ++ b).data = a.data ++ b.data := String.data_append a b
  rw [hc] at h1
  exact (List.append_eq_nil.mp h1.symm).1

/-- C1 (refuted): contrary to the claim that the author formatter returns
a string for every author field and that an empty segment after the split
is still processed, the field `"A and "` splits into `["A", ""]` and the
empty segment reaches `tokens[-1]` with `tokens = []`, raising
`IndexError`: the formatter does not return a string. -/
theorem c1_author_crash_on_empty_segment : formatAuthorsAPA "A and " = none := by
  decide

/-- C3 (counterexample): with an empty journal but volume `"5"` and number
`"2"`, the code renders `"5(2)"`, not the claimed unconditional
`"journal, volume(number)"` template, which would give `", 5(2)"`. -/
theorem c3_journal_segment_cex :
    journalPart "" "5" "2" = "5(2)" ∧
    ¬ journalPart "" "5" "2" = "" ++ ", " ++ "5" ++ "(" ++ "2" ++ ")" := by
  decide

/-- C3 (amended): the journal/volume/number segment with the comma before
the volume part made conditional on a non-empty journal in every case:
both volume and number give `volume(number)`, volume only gives `volume`,
number only gives `(number)`, each prefixed by `"journal, "` exactly when
the journal is non-empty; with neither, the segment is just the journal;
and volume `5` with journal `J` and no number renders as `J, 5`. -/
theorem c3_journal_segment_amended (j v n : String) :
    (v ≠ "" → n ≠ "" → journalPart j v n =
      if j = "" then v ++ "(" ++ n ++ ")" else j ++ ", " ++ (v ++ "(" ++ n ++ ")")) ∧
    (v ≠ "" → n = "" → journalPart j v n =
      if j = "" then v else j ++ ", " ++ v) ∧
    (v = "" → n ≠ "" → journalPart j v n =
      if j = "" then "(" ++ n ++ ")" else j ++ ", " ++ ("(" ++ n ++ ")")) ∧
    (v = "" → n = "" → journalPart j v n = j) := by
  refine ⟨fun hv hn => ?_, fun hv hn => ?_, fun hv hn => ?_, fun hv hn => ?_⟩
  · have hvp : v ++ "(" ++ n ++ ")" ≠ "" :=
      str_append_ne_empty_left _ _ (str_append_ne_empty_left _ _
        (str_append_ne_empty_left _ _ hv))
    by_cases hj : j = "" <;>
      simp [journalPart, hv, hn, hvp, hj]
  · have hvp : v ≠ "" := hv
    by_cases hj : j = "" <;> simp [journalPart, hv, hn, hvp, hj]
  · have hvp : "(" ++ n ++ ")" ≠ "" :=
      str_append_ne_empty_left _ _ (str_append_ne_empty_left _ _ (by decide))
    by_cases hj : j = "" <;>
      simp [journalPart, hv, hn, hvp, hj]
  · simp [journalPart, hv, hn]

/-- C3 (amended, witness): the amended case analysis applied at the
concrete inputs of the claim. -/
theorem c3_journal_segment_amended_witness :
    journalPart "J" "5" "" = (if ("J" : String) = "" then "5" else "J" ++ ", " ++ "5") ∧
    journalPart "J" "5" "2" =
      (if ("J" : String) = "" then "5" ++ "(" ++ "2" ++ ")"
       else "J" ++ ", " ++ ("5" ++ "(" ++ "2" ++ ")")) :=
  ⟨(c3_journal_segment_amended "J" "5" "").2.1 (by decide) (by decide),
   (c3_journal_segment_amended "J" "5" "2").1 (by decide) (by decide)⟩

/-- C5: when the BibTeX parser raises on non-empty input text, the
exception is caught, the diagnostic goes to the error stream only, the
field mapping comes back empty, and the program still prints one (empty)
line on standard output and exits with status 0. -/
theorem c5_parse_failure_handling (paper msg : String) (h : paper ≠ "") :
    parseBibFields paper (.err msg) =
      ([], ["Error parsing BibTeX with bibtexparser: " ++ msg]) ∧
    runWithText paper (.err msg) =
      some ([""], ["Error parsing BibTeX with bibtexparser: " ++ msg], 0) := by
  have hr : renderFields [] = some "" := by decide
  refine ⟨by simp [parseBibFields, h], ?_⟩
  simp [runWithText, paperFromBib, parseBibFields, h, hr]

/-- C5 (witness): the parse-failure handling at a concrete input. -/
theorem c5_parse_failure_handling_witness :
    ("@broken" : String) ≠ "" ∧
    runWithText "@broken" (.err "boom") =
      some ([""], ["Error parsing BibTeX with bibtexparser: boom"], 0) :=
  ⟨by decide, (c5_parse_failure_handling "@broken" "boom" (by decide)).2⟩

theorem latin_toNat_lt (c : Char) (h : isLatinLetter c = true) :
    c.toNat < 123 := by
  simp only [isLatinLetter, decide_eq_true_eq] at h
  rcases h with ⟨_, h2⟩ | ⟨_, h2⟩ <;>
    · have h3 : c.val ≤ _ := Char.le_def.mp h2
      have h4 : c.val.toNat ≤ _ := h3
      exact Nat.lt_of_le_of_lt h4 (by decide)

theorem latin_cases (c : Char) (h : isLatinLetter c = true)
    (P : Char → Prop)
    (hall : ∀ n, n < 123 → isLatinLetter (Char.ofNat n) = true →
      P (Char.ofNat n)) : P c := by
  have h1 := latin_toNat_lt c h
  have h2 := Char.ofNat_toNat c
  have h3 := hall c.toNat h1 (by rw [h2]; exact h)
  rwa [h2] at h3

/-- C6: for every Latin letter `x`, unescaping the acute macro `\'x` (and
the variant `\'\x`) yields the documented accented character for the
twelve letters of the accent table and the bare letter otherwise; the
grave macro yields the bare letter; the tilde macro yields ñ/Ñ; the umlaut
macro yields ö/Ö for o/O and the bare letter otherwise. -/
theorem c6_accent_macros (c : Char) (h : isLatinLetter c = true) :
    unescape_latex ⟨['\\', squote, c]⟩ = ⟨[specAcuteTable c]⟩ ∧
    unescape_latex ⟨['\\', squote, '\\', c]⟩ = ⟨[specAcuteTable c]⟩ ∧
    unescape_latex ⟨['\\', btick, c]⟩ = ⟨[c]⟩ ∧
    unescape_latex ⟨['\\', dquote, c]⟩ = ⟨[specUmlautTable c]⟩ ∧
    unescape_latex "\\~n" = "ñ" ∧ unescape_latex "\\~N" = "Ñ" := by
  refine latin_cases c h (fun x =>
    unescape_latex ⟨['\\', squote, x]⟩ = ⟨[specAcuteTable x]⟩ ∧
    unescape_latex ⟨['\\', squote, '\\', x]⟩ = ⟨[specAcuteTable x]⟩ ∧
    unescape_latex ⟨['\\', btick, x]⟩ = ⟨[x]⟩ ∧
    unescape_latex ⟨['\\', dquote, x]⟩ = ⟨[specUmlautTable x]⟩ ∧
    unescape_latex "\\~n" = "ñ" ∧ unescape_latex "\\~N" = "Ñ") ?_
  decide

/-- C6 (witness): the accent behaviour applied at the concrete letter
`e`. -/
theorem c6_accent_macros_witness :
    isLatinLetter 'e' = true ∧
    unescape_latex ⟨['\\', squote, 'e']⟩ = ⟨[specAcuteTable 'e']⟩ :=
  ⟨by decide, (c6_accent_macros 'e' (by decide)).1⟩

/-- C8: formatted author names are joined as the claim states: one name
stands alone; two names join as `"A, & B"`; three or more names join all
non-final names with `", "` followed by `", & "` and the last name; and
the two concrete author fields of the claim format accordingly. -/
theorem c8_join_formatted_names :
    (∀ a : String, joinNamesAPA [a] = some a) ∧
    (∀ a b : String, joinNamesAPA [a, b] = some (a ++ ", & " ++ b)) ∧
    (∀ ns : List String, 3 ≤ ns.length →
      joinNamesAPA ns =
        some (String.intercalate ", " ns.dropLast ++ ", & " ++ ns.getLastD "")) ∧
    formatAuthorsAPA "John Smith and Jane Doe" = some "Smith, J., & Doe, J." ∧
    formatAuthorsAPA "A B and C D and E F" = some "B, A., D, C., & F, E." := by
  refine ⟨fun a => rfl, fun a b => rfl, ?_, by decide, by decide⟩
  intro ns hlen
  match ns, hlen with
  | a :: b :: c :: rest, _ => rfl

/-- C8 (witness): the three-name join rule at a concrete name list. -/
theorem c8_join_formatted_names_witness :
    3 ≤ (["B, A.", "D, C.", "F, E."] : List String).length ∧
    joinNamesAPA ["B, A.", "D, C.", "F, E."] =
      some (String.intercalate ", "
          (["B, A.", "D, C.", "F, E."] : List String).dropLast ++ ", & " ++
        (["B, A.", "D, C.", "F, E."] : List String).getLastD "") :=
  ⟨by decide, c8_join_formatted_names.2.2.1 ["B, A.", "D, C.", "F, E."]
    (by decide)⟩

/-- C9: the assembler concatenates, in order, only the non-empty parts
with their own trailing punctuation, collapses whitespace and trims; with
only title `"A Study"` and year `"2020"` the line is `"(2020). A Study."`;
with every field empty it prints an empty line; the assembly is a total
function of the looked-up fields (lookups default to the empty string). -/
theorem c9_assembly :
    (∀ a y t jp : String, buildApa a y t jp = specAssemble a y t jp) ∧
    renderFields [("title", "A Study"), ("year", "2020")] =
      some "(2020). A Study." ∧
    renderFields [] = some "" := by
  refine ⟨?_, by decide, by decide⟩
  intro a y t jp
  unfold buildApa specAssemble
  by_cases ha : a = "" <;> by_cases hy : y = "" <;> by_cases ht : t = "" <;>
    by_cases hj : jp = "" <;>
    simp only [ha, hy, ht, hj, ite_true, ite_false, ne_eq,
      not_true_eq_false, not_false_eq_true] <;>
    first
    | rfl
    | (congr 1; congr 1; congr 1; simp [String.data_append])

theorem dictFind_erase_self (d : List (String × String)) (k : String) :
    dictFind (eraseKey d k) k = none := by
  induction d with
  | nil => rfl
  | cons p rest ih =>
    by_cases hp : p.1 = k
    · simp [eraseKey, hp, ih]
    · simp [eraseKey, hp, dictFind, ih]

theorem dictFind_erase_other (d : List (String × String)) (k key : String)
    (hne : key ≠ k) : dictFind (eraseKey d k) key = dictFind d key := by
  induction d with
  | nil => rfl
  | cons p rest ih =>
    by_cases hp : p.1 = k
    · have hpk : ¬ p.1 = key := fun hc => hne (by rw [← hc, hp])
      simp only [eraseKey, hp, ite_true, ih, dictFind]
      cases hf : dictFind rest key
      · simp [Ne.symm hne]
      · simp
    · simp only [eraseKey, hp, ite_false, dictFind, ih]

theorem dictGet_erase (d : List (String × String)) (k key : String) :
    dictGet (eraseKey d k) key = if key = k then "" else dictGet d key := by
  by_cases hkk : key = k
  · subst hkk
    simp [dictGet, dictFind_erase_self]
  · simp [dictGet, dictFind_erase_other d k key hkk, hkk]

theorem renderVals_ext (a y y2 t t2 j j2 v v2 n n2 : String)
    (hy : procField y = procField y2) (ht : procField t = procField t2)
    (hj : procField j = procField j2) (hv : procField v = procField v2)
    (hn : procField n = procField n2) :
    renderVals a y t j v n = renderVals a y2 t2 j2 v2 n2 := by
  unfold renderVals
  rw [hy, ht, hj, hv, hn]

/-- C10: a field among year, title, journal, volume, number whose raw
value unescapes and trims to the empty string is rendered exactly as if
the field were absent from the mapping. -/
theorem c10_blank_field_like_absent (d : List (String × String)) (k : String)
    (h1 : k ∈ ["year", "title", "journal", "volume", "number"])
    (h2 : procField (dictGet d k) = "") :
    renderFields d = renderFields (eraseKey d k) := by
  have hget := dictGet_erase d k
  have hpe : procField "" = "" := by decide
  fin_cases h1 <;>
    · unfold renderFields
      rw [hget "author", hget "year", hget "title", hget "journal",
        hget "volume", hget "number"]
      simp only [if_pos, if_neg, ite_true, ite_false, String.reduceEq,
        reduceIte]
      apply renderVals_ext <;> first | rfl | (rw [h2, hpe])

/-- C10 (witness): a year value consisting only of braces is rendered as
if the year were absent. -/
theorem c10_blank_field_like_absent_witness :
    ("year" : String) ∈ ["year", "title", "journal", "volume", "number"] ∧
    procField (dictGet [("year", "\x7b\x7d"), ("title", "T")] "year") = "" ∧
    renderFields [("year", "\x7b\x7d"), ("title", "T")] =
      renderFields (eraseKey [("year", "\x7b\x7d"), ("title", "T")] "year") :=
  ⟨by decide, by decide,
    c10_blank_field_like_absent [("year", "\x7b\x7d"), ("title", "T")] "year"
      (by decide) (by decide)⟩

theorem noWsRun_tail {c : Char} {l : List Char} (h : noWsRun (c :: l) = true) :
    noWsRun l = true := by
  cases l with
  | nil => rfl
  | cons d tail =>
    simp only [noWsRun, Bool.and_eq_true] at h
    exact h.2

theorem noWsRun_head_space {c : Char} {l : List Char}
    (h : noWsRun (c :: l) = true) (hws : isPySpace c = true) : c = ' ' := by
  cases l with
  | nil => simpa [noWsRun, hws] using h
  | cons d tail =>
    simp only [noWsRun, hws, Bool.and_eq_true, Bool.or_eq_true,
      Bool.not_eq_true', beq_iff_eq] at h
    rcases h.1 with h1 | h1
    · exact absurd h1 (by simp)
    · exact h1.1

theorem noWsRun_pair {c d : Char} {l : List Char}
    (h : noWsRun (c :: d :: l) = true) (hws : isPySpace c = true) :
    isPySpace d = false := by
  simp only [noWsRun, hws, Bool.and_eq_true, Bool.or_eq_true,
    Bool.not_eq_true', beq_iff_eq] at h
  rcases h.1 with h1 | h1
  · exact absurd h1 (by simp)
  · exact h1.2

theorem ws_mem_collapse : ∀ (l : List Char) (c : Char), c ∈ collapseWs l →
    isPySpace c = true → c = ' '
  | [], c, hc, _ => by simp [collapseWs] at hc
  | a :: rest, c, hc, hws => by
    rw [collapseWs] at hc
    by_cases ha : isPySpace a = true
    · rw [if_pos ha] at hc
      cases hr : collapseWs rest with
      | nil => rw [hr, wsCons] at hc; simpa using hc
      | cons d tail =>
        rw [hr, wsCons] at hc
        by_cases hd : isPySpace d = true
        · rw [if_pos hd] at hc
          exact ws_mem_collapse rest c (by rw [hr]; exact hc) hws
        · rw [if_neg hd] at hc
          rcases List.mem_cons.mp hc with rfl | hc2
          · rfl
          · exact ws_mem_collapse rest c (by rw [hr]; exact hc2) hws
    · rw [if_neg ha] at hc
      rcases List.mem_cons.mp hc with rfl | hc2
      · exact absurd hws ha
      · exact ws_mem_collapse rest c hc2 hws

theorem noWsRun_collapse : ∀ l : List Char, noWsRun (collapseWs l) = true
  | [] => rfl
  | c :: rest => by
    have ih := noWsRun_collapse rest
    rw [collapseWs]
    by_cases hc : isPySpace c = true
    · rw [if_pos hc]
      cases hr : collapseWs rest with
      | nil => rw [wsCons]; decide
      | cons d tail =>
        rw [hr] at ih
        rw [wsCons]
        by_cases hd : isPySpace d = true
        · rw [if_pos hd]; exact ih
        · rw [if_neg hd]
          simp [noWsRun, hd, ih]
    · rw [if_neg hc]
      cases hr : collapseWs rest with
      | nil => simp [noWsRun, hc]
      | cons d tail =>
        rw [hr] at ih
        simp [noWsRun, hc, ih]

theorem collapse_eq_self : ∀ l : List Char, noWsRun l = true → collapseWs l = l
  | [], _ => rfl
  | c :: rest, h => by
    have ih := collapse_eq_self rest (noWsRun_tail h)
    rw [collapseWs, ih]
    by_cases hc : isPySpace c = true
    · rw [if_pos hc]
      have hceq : c = ' ' := noWsRun_head_space h hc
      cases rest with
      | nil => rw [wsCons, hceq]
      | cons d tail =>
        have hd := noWsRun_pair h hc
        rw [wsCons, if_neg (by simp [hd]), hceq]
    · rw [if_neg hc]

theorem pyStripRight_shape (c : Char) (rest : List Char) :
    pyStripRight (c :: rest) = [] ∨ ∃ t, pyStripRight (c :: rest) = c :: t := by
  rw [pyStripRight]
  cases pyStripRight rest with
  | nil =>
    by_cases hc : isPySpace c = true
    · left; rw [if_pos hc]
    · right; exact ⟨[], by rw [if_neg hc]⟩
  | cons d tail => right; exact ⟨d :: tail, rfl⟩

theorem mem_pyStripRight {c : Char} : ∀ {l : List Char},
    c ∈ pyStripRight l → c ∈ l := by
  intro l
  induction l with
  | nil => intro h; exact h
  | cons a rest ih =>
    intro h
    rw [pyStripRight] at h
    cases hpr : pyStripRight rest with
    | nil =>
      rw [hpr] at h
      by_cases ha : isPySpace a = true
      · rw [if_pos ha] at h; cases h
      · rw [if_neg ha] at h
        simp only [List.mem_singleton] at h
        simp [h]
    | cons d tail =>
      rw [hpr] at h
      rcases List.mem_cons.mp h with rfl | h2
      · simp
      · exact List.mem_cons_of_mem a (ih (by rw [hpr]; exact h2))

theorem noWsRun_pyStripRight : ∀ l : List Char, noWsRun l = true →
    noWsRun (pyStripRight l) = true
  | [], _ => rfl
  | c :: rest, h => by
    have ih := noWsRun_pyStripRight rest (noWsRun_tail h)
    rw [pyStripRight]
    cases hpr : pyStripRight rest with
    | nil =>
      by_cases hc : isPySpace c = true
      · rw [if_pos hc]; rfl
      · rw [if_neg hc]; simp [noWsRun, hc]
    | cons d tail =>
      rw [hpr] at ih
      cases rest with
      | nil => simp [pyStripRight] at hpr
      | cons e tail2 =>
        rcases pyStripRight_shape e tail2 with hsh | ⟨t2, hsh⟩
        · rw [hsh] at hpr; exact absurd hpr (by simp)
        · rw [hsh] at hpr
          injection hpr with hde htl
          subst hde
          simp only [noWsRun, Bool.and_eq_true]
          refine ⟨?_, ih⟩
          simp only [noWsRun, Bool.and_eq_true] at h
          exact h.1

theorem pyStripRight_idem : ∀ l : List Char,
    pyStripRight (pyStripRight l) = pyStripRight l
  | [] => rfl
  | c :: rest => by
    have ih := pyStripRight_idem rest
    rw [pyStripRight]
    cases hpr : pyStripRight rest with
    | nil =>
      by_cases hc : isPySpace c = true
      · rw [if_pos hc]; rfl
      · rw [if_neg hc]; simp [pyStripRight, hc]
    | cons d tail =>
      rw [hpr] at ih
      rw [pyStripRight, ih]

theorem pyStripLeft_shape : ∀ l : List Char, pyStripLeft l = [] ∨
    ∃ c t, pyStripLeft l = c :: t ∧ isPySpace c = false
  | [] => Or.inl rfl
  | c :: rest => by
    by_cases hc : isPySpace c = true
    · simpa [pyStripLeft, List.dropWhile_cons, hc] using pyStripLeft_shape rest
    · right
      exact ⟨c, rest, by simp [pyStripLeft, List.dropWhile_cons, hc],
        by simp [hc]⟩

theorem noWsRun_pyStripLeft : ∀ l : List Char, noWsRun l = true →
    noWsRun (pyStripLeft l) = true
  | [], _ => rfl
  | c :: rest, h => by
    by_cases hc : isPySpace c = true
    · rw [pyStripLeft, List.dropWhile_cons, if_pos hc]
      exact noWsRun_pyStripLeft rest (noWsRun_tail h)
    · rw [pyStripLeft, List.dropWhile_cons, if_neg hc]
      exact h

theorem pyStripLeft_eq_self {l : List Char}
    (h : ∀ c t, l = c :: t → isPySpace c = false) : pyStripLeft l = l := by
  cases l with
  | nil => rfl
  | cons c t =>
    rw [pyStripLeft, List.dropWhile_cons, if_neg (by simp [h c t rfl])]

theorem pyStrip_idem (l : List Char) : pyStrip (pyStrip l) = pyStrip l := by
  show pyStripRight (pyStripLeft (pyStrip l)) = pyStrip l
  have hL : pyStripLeft (pyStrip l) = pyStrip l := by
    apply pyStripLeft_eq_self
    intro c t hct
    rcases pyStripLeft_shape l with hsh | ⟨d, t2, hsh, hd⟩
    · rw [pyStrip, hsh] at hct; cases hct
    · rw [pyStrip, hsh] at hct
      rcases pyStripRight_shape d t2 with hsh2 | ⟨t3, hsh2⟩
      · rw [hsh2] at hct; cases hct
      · rw [hsh2] at hct
        injection hct with h1 _
        rw [← h1]; exact hd
  rw [hL, pyStrip, pyStripRight_idem]

theorem noWsRun_pyStrip (l : List Char) (h : noWsRun l = true) :
    noWsRun (pyStrip l) = true :=
  noWsRun_pyStripRight _ (noWsRun_pyStripLeft _ h)

theorem mem_pyStrip {c : Char} {l : List Char} (h : c ∈ pyStrip l) : c ∈ l :=
  ((List.dropWhile_sublist isPySpace).mem (mem_pyStripRight h))

theorem replNL_eq_self : ∀ l : List Char, '\n' ∉ l → replNL l = l
  | [], _ => rfl
  | c :: rest, h => by
    simp only [List.mem_cons, not_or] at h
    rw [replNL, List.map_cons, if_neg (fun hc => h.1 hc.symm)]
    have := replNL_eq_self rest h.2
    rw [replNL] at this
    rw [this]

theorem removeBraces_eq_self (l : List Char) (h1 : obrace ∉ l)
    (h2 : cbrace ∉ l) : removeBraces l = l := by
  apply List.filter_eq_self.mpr
  intro a ha
  simp only [Bool.not_eq_true', Bool.or_eq_false_iff, beq_eq_false_iff_ne]
  exact ⟨fun hc => h1 (hc ▸ ha), fun hc => h2 (hc ▸ ha)⟩

theorem str_ext (a b : String) (h : a.data = b.data) : a = b := by
  cases a; cases b; cases h; rfl

theorem unescape_data (s : String) (hs : s ≠ "") :
    (unescape_latex s).data = pyStrip (collapseWs (removeBraces
      (subUmlaut (subTilde (subGrave (subAcute (replNL s.data))))))) := by
  rw [unescape_latex, if_neg hs]

theorem noWsRun_unescape (s : String) :
    noWsRun (unescape_latex s).data = true := by
  by_cases hs : s = ""
  · subst hs; rfl
  · rw [unescape_data s hs]
    exact noWsRun_pyStrip _ (noWsRun_collapse _)

theorem no_newline_unescape (s : String) : '\n' ∉ (unescape_latex s).data := by
  by_cases hs : s = ""
  · subst hs; intro hmem; cases hmem
  · rw [unescape_data s hs]
    intro hmem
    have h2 := mem_pyStrip hmem
    have h3 := ws_mem_collapse _ _ h2 (by decide)
    exact absurd h3 (by decide)

theorem pyStrip_unescape (s : String) :
    pyStrip (unescape_latex s).data = (unescape_latex s).data := by
  by_cases hs : s = ""
  · subst hs; rfl
  · rw [unescape_data s hs, pyStrip_idem]

theorem unescape_fix (t : String) (h1 : subAcute t.data = t.data)
    (h2 : subGrave t.data = t.data) (h3 : subTilde t.data = t.data)
    (h4 : subUmlaut t.data = t.data) (h5 : obrace ∉ t.data)
    (h6 : cbrace ∉ t.data) (hRun : noWsRun t.data = true)
    (hStrip : pyStrip t.data = t.data) (hNl : '\n' ∉ t.data) :
    unescape_latex t = t := by
  by_cases htt : t = ""
  · rw [htt]; rfl
  · apply str_ext
    rw [unescape_data t htt, replNL_eq_self _ hNl, h1, h2, h3, h4,
      removeBraces_eq_self _ h5 h6, collapse_eq_self _ hRun, hStrip]

/-- C4: the LaTeX unescaper is idempotent once no macros or braces remain
in the once-unescaped output: applying it a second time returns that
output unchanged. -/
theorem c4_unescape_idempotent (s : String)
    (h : noMacroOrBrace (unescape_latex s)) :
    unescape_latex (unescape_latex s) = unescape_latex s := by
  obtain ⟨h1, h2, h3, h4, h5, h6⟩ := h
  exact unescape_fix _ h1 h2 h3 h4 h5 h6 (noWsRun_unescape s)
    (pyStrip_unescape s) (no_newline_unescape s)

/-- C4 (witness): idempotence at a concrete input containing a macro,
braces and whitespace. -/
theorem c4_unescape_idempotent_witness :
    noMacroOrBrace (unescape_latex "\\'a \x7bit\x7d  \\~n") ∧
    unescape_latex (unescape_latex "\\'a \x7bit\x7d  \\~n") =
      unescape_latex "\\'a \x7bit\x7d  \\~n" :=
  ⟨by decide, c4_unescape_idempotent _ (by decide)⟩

theorem ss_tail {c : Char} {l : List Char}
    (h : singleSpaced (c :: l) = true) : singleSpaced l = true := by
  cases l with
  | nil => rfl
  | cons d tail =>
    simp only [singleSpaced, Bool.and_eq_true] at h
    exact h.2

theorem ss_head {c : Char} {l : List Char}
    (h : singleSpaced (c :: l) = true) (hws : isPySpace c = true) : c = ' ' := by
  cases l with
  | nil => simpa [singleSpaced, hws] using h
  | cons d tail =>
    simp only [singleSpaced, hws, Bool.and_eq_true, Bool.or_eq_true,
      Bool.not_eq_true', beq_iff_eq] at h
    rcases h.1.1 with h1 | h1
    · exact absurd h1 (by simp)
    · exact h1

theorem ss_pair {c d : Char} {l : List Char}
    (h : singleSpaced (c :: d :: l) = true) (hws : isPySpace c = true) :
    isPySpace d = false := by
  simp only [singleSpaced, hws, Bool.and_eq_true] at h
  have h2 := h.1.2
  simp only [Bool.not_eq_true', Bool.and_eq_false_iff] at h2
  rcases h2 with h2 | h2
  · exact absurd h2 (by simp)
  · exact h2

theorem ss_after_space_take {g : Char} {r : List Char}
    (h : singleSpaced (g :: r) = true) (hg : isPySpace g = true) :
    r.takeWhile isPySpace = [] := by
  cases r with
  | nil => rfl
  | cons d tail =>
    rw [List.takeWhile_cons, if_neg (by simp [ss_pair h hg])]

theorem ss_after_space_drop {g : Char} {r : List Char}
    (h : singleSpaced (g :: r) = true) (hg : isPySpace g = true) :
    r.dropWhile isPySpace = r := by
  cases r with
  | nil => rfl
  | cons d tail =>
    rw [List.dropWhile_cons, if_neg (by simp [ss_pair h hg])]

theorem matchAndSep_eq_lit (l : List Char) (h : singleSpaced l = true) :
    matchAndSep l = matchLitAnd l := by
  cases l with
  | nil => rfl
  | cons c rest =>
    by_cases hc : isPySpace c = true
    · have hce : c = ' ' := ss_head h hc
      cases rest with
      | nil => simp [matchAndSep, matchLitAnd, List.takeWhile_cons, hc]
      | cons d rest2 =>
        have hd : isPySpace d = false := ss_pair h hc
        have htake : List.takeWhile isPySpace (c :: d :: rest2) =
            c :: List.takeWhile isPySpace (d :: rest2) := by
          rw [List.takeWhile_cons, if_pos hc]
        have htake2 : List.takeWhile isPySpace (d :: rest2) = [] := by
          rw [List.takeWhile_cons, if_neg (by simp [hd])]
        have hdrop : List.dropWhile isPySpace (c :: d :: rest2) = d :: rest2 := by
          rw [List.dropWhile_cons, if_pos hc, List.dropWhile_cons,
            if_neg (by simp [hd])]
        rcases rest2 with _ | ⟨e, _ | ⟨f, _ | ⟨g, r3⟩⟩⟩
        · simp [matchAndSep, matchLitAnd, htake, htake2, hdrop]
        · simp [matchAndSep, matchLitAnd, htake, htake2, hdrop]
        · -- dropWhile gives [d, e, f]: the and-shape matches but r2 = []
          simp only [matchAndSep, matchLitAnd, htake, htake2, hdrop]
          by_cases hand : d = 'a' ∧ e = 'n' ∧ f = 'd' <;>
            simp [hand, List.takeWhile_nil]
        · -- dropWhile gives d :: e :: f :: g :: r3
          have hss4 : singleSpaced (g :: r3) = true :=
            ss_tail (ss_tail (ss_tail (ss_tail h)))
          simp only [matchAndSep, matchLitAnd, htake, htake2, hdrop]
          by_cases hand : d = 'a' ∧ e = 'n' ∧ f = 'd'
          · by_cases hg : isPySpace g = true
            · have hge : g = ' ' := ss_head hss4 hg
              subst hge
              have ht4 : List.takeWhile isPySpace r3 = [] :=
                ss_after_space_take hss4 hg
              have hd3 : List.dropWhile isPySpace r3 = r3 :=
                ss_after_space_drop hss4 hg
              rw [List.takeWhile_cons, if_pos hg, List.dropWhile_cons,
                if_pos hg, ht4, hd3]
              simp [hand, hce]
            · have hgne : ¬ g = ' ' := fun he => hg (by rw [he]; decide)
              have ht3 : List.takeWhile isPySpace (g :: r3) = [] := by
                rw [List.takeWhile_cons, if_neg hg]
              rw [ht3, if_pos rfl, if_pos hand]
              exact (if_neg (fun hcon => hgne hcon.2.2.2.2)).symm
          · rw [if_neg hand]
            exact (if_neg (fun hcon =>
              hand ⟨hcon.2.1, hcon.2.2.1, hcon.2.2.2.1⟩)).symm
    · have hcne : ¬ c = ' ' := fun he => hc (by rw [he]; decide)
      have htake : List.takeWhile isPySpace (c :: rest) = [] := by
        rw [List.takeWhile_cons, if_neg hc]
      rcases rest with _ | ⟨c2, _ | ⟨c3, _ | ⟨c4, _ | ⟨c5, r⟩⟩⟩⟩ <;>
        simp [matchAndSep, matchLitAnd, htake, hcne]

theorem matchLitAnd_singleSpaced {l r : List Char}
    (hml : matchLitAnd l = some r) (h : singleSpaced l = true) :
    singleSpaced r = true := by
  rcases l with _ | ⟨c1, _ | ⟨c2, _ | ⟨c3, _ | ⟨c4, _ | ⟨c5, rest⟩⟩⟩⟩⟩ <;>
    simp [matchLitAnd] at hml
  rcases hml with ⟨_, hrest⟩
  rw [← hrest]
  exact ss_tail (ss_tail (ss_tail (ss_tail (ss_tail h))))

theorem splitGo_lit_eq : ∀ (fuel : Nat) (l seg : List Char),
    singleSpaced l = true →
    splitGo matchAndSep fuel l seg = splitGo matchLitAnd fuel l seg
  | 0, l, seg, _ => rfl
  | fuel + 1, [], seg, _ => rfl
  | fuel + 1, c :: rest, seg, h => by
    rw [splitGo, splitGo, matchAndSep_eq_lit _ h]
    cases hml : matchLitAnd (c :: rest) with
    | none => exact splitGo_lit_eq fuel rest (c :: seg) (ss_tail h)
    | some r =>
      show seg.reverse :: splitGo matchAndSep fuel r [] =
        seg.reverse :: splitGo matchLitAnd fuel r []
      rw [splitGo_lit_eq fuel r [] (matchLitAnd_singleSpaced hml h)]

/-- C2 (counterexample): the author field `"A\tand\tB"` contains no
occurrence of the literal separator `" and "`, so under the claimed rule it
would stay one segment; the code's `re.split(r'\s+and\s+', ...)` splits it
into `["A", "B"]`. -/
theorem c2_literal_split_cex :
    splitAuthors "A\tand\tB" = ["A", "B"] ∧
    specSplitLitAnd "A\tand\tB" = ["A\tand\tB"] := by
  decide

/-- C2 (amended): author splitting happens at maximal runs of whitespace
around the word `and` (the regex `\s+and\s+`, case-sensitive, order
preserved); on fields whose whitespace consists of single spaces only this
coincides with splitting exactly at occurrences of the literal
`" and "`. -/
theorem c2_split_amended (s : String) (h : singleSpaced s.data = true) :
    splitAuthors s = specSplitLitAnd s := by
  unfold splitAuthors specSplitLitAnd splitAndSep
  rw [splitGo_lit_eq s.data.length s.data [] h]

/-- C2 (amended, witness): the coincidence at a concrete single-spaced
author field. -/
theorem c2_split_amended_witness :
    singleSpaced ("John Smith and Jane Doe" : String).data = true ∧
    splitAuthors "John Smith and Jane Doe" =
      specSplitLitAnd "John Smith and Jane Doe" :=
  ⟨by decide, c2_split_amended "John Smith and Jane Doe" (by decide)⟩

theorem foldl_initialsArm : ∀ (ts : List (List Char)) (acc : List Char),
    ts.foldl initialsArm acc = acc ++ (ts.map (initialsArm [])).flatten
  | [], acc => by simp
  | t :: ts, acc => by
    rw [List.foldl_cons, foldl_initialsArm ts (initialsArm acc t),
      List.map_cons, List.flatten_cons]
    cases t with
    | nil => simp [initialsArm]
    | cons c cs => simp [initialsArm]

theorem pyWordsAux_tokens : ∀ (l acc : List Char),
    (∀ c ∈ acc, isPySpace c = false) →
    ∀ t ∈ pyWordsAux l acc, ∃ c cs, t = c :: cs ∧ isPySpace c = false
  | [], acc, hacc, t, ht => by
    rw [pyWordsAux] at ht
    by_cases ha : acc = []
    · rw [if_pos ha] at ht; cases ht
    · rw [if_neg ha] at ht
      simp only [List.mem_singleton] at ht
      subst ht
      cases hrev : acc.reverse with
      | nil => exact absurd (by simpa using hrev) ha
      | cons c cs =>
        refine ⟨c, cs, rfl, hacc c ?_⟩
        have hm : c ∈ acc.reverse := by
          rw [hrev]; exact List.mem_cons_self c cs
        simpa using hm
  | a :: rest, acc, hacc, t, ht => by
    rw [pyWordsAux] at ht
    by_cases hws : isPySpace a = true
    · rw [if_pos hws] at ht
      by_cases ha : acc = []
      · rw [if_pos ha] at ht
        exact pyWordsAux_tokens rest [] (by simp) t ht
      · rw [if_neg ha] at ht
        rcases List.mem_cons.mp ht with rfl | ht2
        · cases hrev : acc.reverse with
          | nil => exact absurd (by simpa using hrev) ha
          | cons c cs =>
            refine ⟨c, cs, rfl, hacc c ?_⟩
            have hm : c ∈ acc.reverse := by
              rw [hrev]; exact List.mem_cons_self c cs
            simpa using hm
        · exact pyWordsAux_tokens rest [] (by simp) t ht2
    · rw [if_neg hws] at ht
      refine pyWordsAux_tokens rest (a :: acc) ?_ t ht
      intro c hc
      rcases List.mem_cons.mp hc with rfl | hc2
      · simpa using hws
      · exact hacc c hc2

theorem pyWords_tokens (l : List Char) :
    ∀ t ∈ pyWords l, ∃ c cs, t = c :: cs ∧ isPySpace c = false :=
  pyWordsAux_tokens l [] (by simp)

theorem pyStripRight_append_nonws : ∀ (l : List Char) (c : Char),
    isPySpace c = false → pyStripRight (l ++ [c]) = l ++ [c]
  | [], c, hc => by simp [pyStripRight, hc]
  | a :: l, c, hc => by
    rw [List.cons_append, pyStripRight, pyStripRight_append_nonws l c hc]
    rcases hl : l ++ [c] with _ | ⟨d, tail⟩
    · exact absurd hl (by simp)
    · rfl

theorem join_cons_space : ∀ (xs : List (List Char)), xs ≠ [] →
    (xs.map fun x => ' ' :: x).flatten = ' ' :: joinSpace xs
  | [], h => absurd rfl h
  | [x], _ => by simp [joinSpace]
  | x :: y :: xs, _ => by
    rw [List.map_cons, List.flatten_cons, join_cons_space (y :: xs) (by simp)]
    show (' ' :: x) ++ ' ' :: joinSpace (y :: xs) =
      ' ' :: (x ++ ' ' :: joinSpace (y :: xs))
    simp

theorem joinSpace_ends : ∀ (xs : List (List Char)),
    (∀ x ∈ xs, ∃ l, x = l ++ ['.']) → xs ≠ [] →
    ∃ l, joinSpace xs = l ++ ['.']
  | [], _, h => absurd rfl h
  | [x], hx, _ => by
    rcases hx x (by simp) with ⟨l, hl⟩
    exact ⟨l, by simp [joinSpace, hl]⟩
  | x :: y :: xs, hx, _ => by
    rcases joinSpace_ends (y :: xs)
      (fun z hz => hx z (List.mem_cons_of_mem x hz)) (by simp) with ⟨l, hl⟩
    refine ⟨x ++ ' ' :: l, ?_⟩
    show x ++ ' ' :: joinSpace (y :: xs) = (x ++ ' ' :: l) ++ ['.']
    rw [hl]
    simp

theorem joinSpace_head : ∀ (c : Char) (cs : List Char) (xs : List (List Char)),
    ∃ tail, joinSpace ((c :: cs) :: xs) = c :: tail
  | c, cs, [] => ⟨cs, rfl⟩
  | c, cs, y :: xs =>
    ⟨cs ++ ' ' :: joinSpace (y :: xs), by
      show (c :: cs) ++ ' ' :: joinSpace (y :: xs) = _
      simp⟩

theorem initialsOf_eq_spec (l : List Char) : initialsOf l = specInitials l := by
  rw [initialsOf, specInitials, foldl_initialsArm, List.nil_append]
  cases hw : pyWords l with
  | nil => rfl
  | cons t ts =>
    have hprops := pyWords_tokens l
    rw [hw] at hprops
    have hmap : (t :: ts).map (initialsArm []) =
        ((t :: ts).map (fun x => [x.headD ' ', '.'])).map (fun x => ' ' :: x) := by
      rw [List.map_map]
      apply List.map_congr_left
      intro x hx
      rcases hprops x hx with ⟨c, cs, rfl, _⟩
      rfl
    rw [hmap, join_cons_space _ (by simp)]
    rcases hprops t (by simp) with ⟨c, cs, ht, hcws⟩
    obtain ⟨tail, heq⟩ := joinSpace_head (t.headD ' ') ['.']
      (ts.map (fun x => [x.headD ' ', '.']))
    obtain ⟨lend, hend⟩ := joinSpace_ends
      ((t :: ts).map (fun x => [x.headD ' ', '.']))
      (by
        intro x hx
        rcases List.mem_map.mp hx with ⟨z, _, rfl⟩
        exact ⟨[z.headD ' '], rfl⟩)
      (by simp)
    have hheadws : isPySpace (t.headD ' ') = false := by
      rw [ht]; simpa using hcws
    rw [pyStrip, pyStripLeft, List.dropWhile_cons,
      if_pos (by decide : isPySpace ' ' = true)]
    have hdw : List.dropWhile isPySpace
        (joinSpace ((t :: ts).map (fun x => [x.headD ' ', '.']))) =
        joinSpace ((t :: ts).map (fun x => [x.headD ' ', '.'])) := by
      show List.dropWhile isPySpace
        (joinSpace ((t.headD ' ' :: ['.']) :: ts.map (fun x => [x.headD ' ', '.']))) =
        joinSpace ((t.headD ' ' :: ['.']) :: ts.map (fun x => [x.headD ' ', '.']))
      rw [heq, List.dropWhile_cons, if_neg (by simpa using hheadws)]
    rw [hdw, hend, pyStripRight_append_nonws _ _ (by decide), ← hend]

/-- C7: for every author segment, after unescaping and trimming: a segment
containing a comma is split once on the first comma into (last, first),
both trimmed; otherwise a single whitespace token is the last name with an
empty first name, and with two or more tokens the final token is the last
name and the preceding tokens joined by spaces form the first-name string;
initials are the first character of each first-name token, each followed
by a period and space-joined; and the single token `"Smith"` formats as
`"Smith"` with no initials and no trailing comma. -/
theorem c7_segment_parsing (seg : List Char) :
    ((',') ∈ (unescape_latex (pyStripStr ⟨seg⟩)).data →
      formatSegment seg =
        some (specCommaName (unescape_latex (pyStripStr ⟨seg⟩)).data)) ∧
    ((',') ∉ (unescape_latex (pyStripStr ⟨seg⟩)).data →
      ∀ t, pyWords (unescape_latex (pyStripStr ⟨seg⟩)).data = [t] →
        formatSegment seg = some ⟨t⟩) ∧
    ((',') ∉ (unescape_latex (pyStripStr ⟨seg⟩)).data →
      2 ≤ (pyWords (unescape_latex (pyStripStr ⟨seg⟩)).data).length →
      formatSegment seg =
        some (specMultiName (pyWords (unescape_latex (pyStripStr ⟨seg⟩)).data))) ∧
    formatAuthorsAPA "Smith" = some "Smith" := by
  refine ⟨?_, ?_, ?_, by decide⟩
  · intro h
    simp only [formatSegment, if_pos h]
    rw [specCommaName, mkSpecName, initialsOf_eq_spec, apply_ite some]
  · intro h1 t h2
    simp only [formatSegment, if_neg h1, h2]
    rw [if_pos (show initialsOf [] = [] from rfl)]
  · intro h1 h2
    rcases hw : pyWords (unescape_latex (pyStripStr ⟨seg⟩)).data with
      _ | ⟨t1, _ | ⟨t2, ts⟩⟩
    · rw [hw] at h2; simp at h2
    · rw [hw] at h2; simp at h2
    · simp only [formatSegment, if_neg h1, hw]
      rw [specMultiName, mkSpecName, initialsOf_eq_spec, apply_ite some]

/-- C7 (witness): the comma branch at the concrete segment `"Doe, John"`. -/
theorem c7_segment_parsing_witness :
    (',') ∈ (unescape_latex (pyStripStr ⟨("Doe, John" : String).data⟩)).data ∧
    formatSegment ("Doe, John" : String).data =
      some (specCommaName
        (unescape_latex (pyStripStr ⟨("Doe, John" : String).data⟩)).data) :=
  ⟨by decide, (c7_segment_parsing ("Doe, John" : String).data).1 (by decide)⟩
